/-
Verification of the zcrawl traversal engine, admission-filter pipeline,
run-record model and browser-resource pool against their specification.

The definitions below are a shallow embedding of the Python sources:
  * src/strategies/BaseStrategy.py      (shared strategy state and helpers)
  * src/strategies/BFSCrawlingStrategy.py (BFSCrawlingStrategy.crawl)
  * src/strategies/DFSCrawlingStrategy.py (DFSCrawlingStrategy._dfs_crawl)
  * src/models/CrawlingResult.py        (run record and success_rate)
  * src/filters/chain.py, src/filters/base.py (FilterChain and operators)
  * src/browser/browser_manager.py      (pool eviction sweep and get_instance)

URLs are opaque identifiers to the traversal logic, so the traversal is
embedded generically over a type `U` with decidable equality; concrete
instances use `Nat` or `String`.  The scraper boundary is a pair of
functions: `g : U → List U` gives each page's extracted navigable links
(`PageScrapeResult.navigable_links`) and `fail : U → Bool` tells whether
`scraper.scrape` raises for that URL.  The async loops are embedded as
fuel-indexed step functions: running with fuel `n` produces the state after
at most `n` loop iterations, so properties proved for every fuel hold at
every point of the run.
-/
import Mathlib

set_option linter.unusedVariables false
set_option linter.unusedSectionVars false

variable {U : Type} [DecidableEq U]

/-- Internal state of `BaseStrategy` (the fields set by `__init__` /
`_reset_state`) together with the mutable parts of the `CrawlingResult`
record that the strategies update through `add_scraped_page`.
`attempts` is trace instrumentation: the list of `(url, depth)` pairs for
every `_scrape_page` call, in call order (the BFS code calls
`_scrape_page(url)` with the scraper's `current_depth` defaulted to 0; the
trace records the frontier depth of the fetched candidate). -/
structure StrategyState (U : Type) where
  /-- `self._visited_urls` (a Python set; only membership is ever used). -/
  visited : List U := []
  /-- `self._failed_urls` (a Python set). -/
  failed : List U := []
  /-- `self._pages_crawled`. -/
  pagesCrawled : Nat := 0
  /-- `self._current_depth`. -/
  currentDepth : Nat := 0
  /-- `result.scraped_pages` (each page recorded by its URL). -/
  scrapedPages : List U := []
  /-- `result.visited_urls`, appended by `add_scraped_page`. -/
  recordVisited : List U := []
  /-- `result.failed_urls`: populated only when the record is created
  (`_create_crawling_result` runs right after `_reset_state`, so it starts
  empty) and `CrawlingResult.add_failed_url` is never invoked anywhere in
  the code base, so no crawl path ever appends to it. -/
  recordFailed : List U := []
  /-- Trace of `_scrape_page` invocations: `(url, frontier depth)`. -/
  attempts : List (U × Nat) := []

/-- Python `set.add`: insert if absent. -/
def setAdd (s : List U) (u : U) : List U :=
  if u ∈ s then s else u :: s

/-- `BaseStrategy._scrape_page`: calls `scraper.scrape(url)`; on success
adds the URL to the visited set and increments the page counter, on an
exception adds it to the failed set and returns `None`.  The returned
`Bool` is whether a page result was produced. -/
def scrapePage (fail : U → Bool) (st : StrategyState U) (url : U) (depth : Nat) :
    Bool × StrategyState U :=
  let st' := { st with attempts := st.attempts ++ [(url, depth)] }
  if fail url then
    (false, { st' with failed := setAdd st'.failed url })
  else
    (true, { st' with visited := setAdd st'.visited url,
                      pagesCrawled := st'.pagesCrawled + 1 })

/-- `CrawlingResult.add_scraped_page`: appends the page to
`scraped_pages` and its URL to `visited_urls`. -/
def addScrapedPage (st : StrategyState U) (url : U) : StrategyState U :=
  { st with scrapedPages := st.scrapedPages ++ [url],
            recordVisited := st.recordVisited ++ [url] }

/-- `BaseStrategy._extract_links`: keeps the page's navigable links whose
URL is not in the visited set. -/
def extractLinks (g : U → List U) (st : StrategyState U) (url : U) : List U :=
  (g url).filter (fun l => decide (l ∉ st.visited))

/-- `BaseStrategy._should_continue_crawling`: `False` once the page budget
is reached. -/
def shouldContinueCrawling (maxPages : Nat) (st : StrategyState U) : Bool :=
  if st.pagesCrawled ≥ maxPages then false else true

/-- The loop state of `BFSCrawlingStrategy.crawl`: the strategy state, the
`deque` of `(url, depth)` pairs, and the `queued_urls` set. -/
structure BfsState (U : Type) where
  st : StrategyState U
  queue : List (U × Nat)
  queued : List U

/-- The enqueue loop at the end of each BFS iteration: for every extracted
link, if it is neither visited nor already queued, append it to the queue
at `depth + 1` and add it to the queued set. -/
def bfsEnqueue (st : StrategyState U) (depth : Nat) (links : List U)
    (queue : List (U × Nat)) (queued : List U) : List (U × Nat) × List U :=
  links.foldl
    (fun acc link =>
      if link ∉ st.visited ∧ link ∉ acc.2 then
        (acc.1 ++ [(link, depth + 1)], acc.2 ++ [link])
      else acc)
    (queue, queued)

/-- One iteration of the `while` loop of `BFSCrawlingStrategy.crawl`:
`none` when the loop guard stops the run (empty queue or page budget
reached), otherwise the loop state after the iteration.  (`self._is_running`
stays true for the whole of `crawl`, so the `_is_running` conjunct of the
loop guard is constant and omitted.) -/
def bfsStep (g : U → List U) (fail : U → Bool) (maxDepth maxPages : Nat)
    (s : BfsState U) : Option (BfsState U) :=
  match s.queue with
  | [] => none
  | (url, depth) :: rest =>
    if shouldContinueCrawling maxPages s.st = false then none
    else
      -- queued_urls.discard(url)
      let queued' := s.queued.filter (fun x => decide (x ≠ url))
      let st1 := { s.st with currentDepth := max s.st.currentDepth depth }
      let res := scrapePage fail st1 url depth
      if res.1 then
        let st3 := addScrapedPage res.2 url
        if maxDepth ≤ depth then some ⟨st3, rest, queued'⟩
        else
          let links := extractLinks g st3 url
          let qq := bfsEnqueue st3 depth links rest queued'
          some ⟨st3, qq.1, qq.2⟩
      else some ⟨res.2, rest, queued'⟩

/-- The `while` loop of `BFSCrawlingStrategy.crawl`: iterate `bfsStep`.
`fuel` bounds the number of iterations; exhausted fuel returns the current
loop state unchanged, so the state after any prefix of the run is obtained
by choosing the fuel. -/
def bfsLoop (g : U → List U) (fail : U → Bool) (maxDepth maxPages : Nat) :
    Nat → BfsState U → BfsState U
  | 0, s => s
  | fuel + 1, s =>
    match bfsStep g fail maxDepth maxPages s with
    | none => s
    | some s' => bfsLoop g fail maxDepth maxPages fuel s'

/-- `BFSCrawlingStrategy.crawl` after `_reset_state`: seed the queue with
`(start_url, 0)` and the queued set with the start URL, then run the loop. -/
def bfsRun (g : U → List U) (fail : U → Bool) (maxDepth maxPages fuel : Nat)
    (start : U) : BfsState U :=
  bfsLoop g fail maxDepth maxPages fuel ⟨{}, [(start, 0)], [start]⟩

/-- `DFSCrawlingStrategy._dfs_crawl`, recursion fueled by `gas` (the real
recursion is bounded because `_dfs_crawl` never recurses once
`depth ≥ max_depth`, so any `gas ≥ maxDepth + 2` is never exhausted).  The
`for link in links` loop with its `break` guard is the fold: the guard
`_should_continue_crawling` is monotone (the page counter never
decreases), so checking it before each element is the same as breaking out
of the loop. -/
def dfsCrawlRec (g : U → List U) (fail : U → Bool) (maxDepth maxPages : Nat) :
    Nat → U → StrategyState U → Nat → StrategyState U
  | 0, _, st, _ => st
  | gas + 1, url, st, depth =>
    if shouldContinueCrawling maxPages st = false then st
    else
      let st1 := { st with currentDepth := max st.currentDepth depth }
      let res := scrapePage fail st1 url depth
      if res.1 then
        let st3 := addScrapedPage res.2 url
        if maxDepth ≤ depth then st3
        else
          (extractLinks g st3 url).foldl
            (fun acc link =>
              if shouldContinueCrawling maxPages acc then
                dfsCrawlRec g fail maxDepth maxPages gas link acc (depth + 1)
              else acc)
            st3
      else res.2

/-- `CrawlingResult`, restricted to the fields the claims are about (the
timestamps and metadata play no role in any claim). -/
structure CrawlingResultM (U : Type) where
  startUrl : U
  strategy : String
  maxDepthReached : Nat
  scrapedPages : List U
  visitedUrls : List U
  failedUrls : List U

/-- `CrawlingResult.success_rate`: `len(visited_urls) / (len(visited_urls)
+ len(failed_urls))`, `0` when there have been no attempts.  The Python
float division is exact on the small counts of the claims, embedded as a
rational. -/
def successRate (r : CrawlingResultM U) : ℚ :=
  let totalAttempts := r.visitedUrls.length + r.failedUrls.length
  if totalAttempts = 0 then 0
  else (r.visitedUrls.length : ℚ) / (totalAttempts : ℚ)

/-- Build the returned record from the final strategy state, as
`_create_crawling_result` + the `add_scraped_page` mutations do. -/
def mkCrawlingResult (start : U) (strategy : String) (st : StrategyState U) :
    CrawlingResultM U :=
  { startUrl := start, strategy := strategy, maxDepthReached := st.currentDepth,
    scrapedPages := st.scrapedPages, visitedUrls := st.recordVisited,
    failedUrls := st.recordFailed }

/-- Configuration accepted by `BaseStrategy.__init__`.  `urlFilter`,
`allowedDomains` and `respectRobotsTxt` are stored by the constructor and,
faithfully to the source, never consulted by any crawl path. -/
structure StrategyConfig (U : Type) where
  maxDepth : Nat := 3
  maxPages : Nat := 100
  allowedDomains : List String := []
  urlFilter : Option (U → Bool) := none
  respectRobotsTxt : Bool := true

/-- `BFSCrawlingStrategy(...).crawl(start)`: the completed run record. -/
def bfsCrawl (cfg : StrategyConfig U) (g : U → List U) (fail : U → Bool)
    (fuel : Nat) (start : U) : CrawlingResultM U :=
  mkCrawlingResult start "BFS"
    (bfsRun g fail cfg.maxDepth cfg.maxPages fuel start).st

/-- `DFSCrawlingStrategy(...).crawl(start)`: the completed run record. -/
def dfsCrawl (cfg : StrategyConfig U) (g : U → List U) (fail : U → Bool)
    (gas : Nat) (start : U) : CrawlingResultM U :=
  mkCrawlingResult start "DFS"
    (dfsCrawlRec g fail cfg.maxDepth cfg.maxPages gas start {} 0)

/-- `u` is reachable from `seed` in at most `n` hops of the link graph `g`. -/
inductive ReachIn (g : U → List U) (seed : U) : Nat → U → Prop
  | refl (n : Nat) : ReachIn g seed n seed
  | step {n : Nat} {u v : U} : ReachIn g seed n u → v ∈ g u →
      ReachIn g seed (n + 1) v

/-- The filter tree of `src/filters`: a leaf is any concrete `Filter`
subclass (its `run` method, a pure predicate on the input string), an
inner node is a `FilterChain` with its child list and its operator
string. -/
inductive PyFilter where
  | leaf (p : String → Bool)
  | chain (filters : List PyFilter) (operator : String)

mutual
/-- `FilterChain.run` (and `Filter.run` at a leaf): an empty chain accepts
everything; "and" returns `False` at the first failing child, "or" returns
`True` at the first succeeding child, "not" inverts its single child; an
unrecognised operator falls through to `return False`. -/
def runFilter : PyFilter → String → Bool
  | .leaf p, x => p x
  | .chain [] _, _ => true
  | .chain (f :: fs) op, x =>
    if op = "and" then runFilter f x && runAll fs x
    else if op = "or" then runFilter f x || runAny fs x
    else if op = "not" then !(runFilter f x)
    else false
/-- The short-circuiting "and" loop over the remaining children. -/
def runAll : List PyFilter → String → Bool
  | [], _ => true
  | f :: fs, x => runFilter f x && runAll fs x
/-- The short-circuiting "or" loop over the remaining children. -/
def runAny : List PyFilter → String → Bool
  | [], _ => false
  | f :: fs, x => runFilter f x || runAny fs x
end

/-- Python `str.lower()` on the ASCII operator strings. -/
def pyLower (s : String) : String := ⟨s.data.map Char.toLower⟩

/-- The exceptions relevant to the filter claims.  `configurationError`
is the class named by the specification's error taxonomy; the code base
itself defines no such class and raises the built-in `ValueError`.
Messages carried by the exceptions are irrelevant to the claims and
omitted. -/
inductive PyError where
  | valueError
  | configurationError
deriving DecidableEq

/-- `FilterChain.__init__`: lower-cases the operator, rejects anything
outside `["and", "or", "not"]` with a `ValueError`, rejects `"not"` with a
child count other than one with a `ValueError`, and otherwise constructs
the chain. -/
def filterChainInit (filters : List PyFilter) (operator : String) :
    Except PyError PyFilter :=
  let op := pyLower operator
  if ¬ (op = "and" ∨ op = "or" ∨ op = "not") then .error .valueError
  else if op = "not" ∧ filters.length ≠ 1 then .error .valueError
  else .ok (.chain filters op)

/-- The `&` operator: `Filter.__and__` wraps the two operands in a fresh
"and" chain; `FilterChain.__and__` on an "and" chain flattens, extending
its child list with the other chain's children when that one is also an
"and" chain and appending the operand otherwise. -/
def pyAnd : PyFilter → PyFilter → PyFilter
  | .leaf p, other => .chain [.leaf p, other] "and"
  | .chain fs op, other =>
    if op = "and" then
      match other with
      | .chain fs2 op2 =>
        if op2 = "and" then .chain (fs ++ fs2) "and"
        else .chain (fs ++ [.chain fs2 op2]) "and"
      | .leaf p => .chain (fs ++ [.leaf p]) "and"
    else .chain [.chain fs op, other] "and"

/-- The `~` operator (`Filter.__invert__` / `FilterChain.__invert__`):
wraps its operand in a singleton "not" chain. -/
def pyInvert (f : PyFilter) : PyFilter := .chain [f] "not"

/-- One pooled browser handle's bookkeeping in `BrowserManager`
(`_instance_created_at[name]`, `_instance_last_used[name]`).  Timestamps
are instants on an integer clock; the underlying `BrowserInstance` and its
config play no role in the eviction claims. -/
structure InstanceRec where
  createdAt : Int
  lastUsed : Int
deriving DecidableEq

/-- `BrowserManager` state: the keyed instance bookkeeping (the parallel
dicts share their key set, embedded as one association list with unique
keys) and the two eviction thresholds. -/
structure ManagerState where
  instances : List (String × InstanceRec)
  maxIdleTime : Int
  maxLifetime : Int
deriving DecidableEq

/-- The `self._instance_last_used[name] = datetime.now()` update performed
by `get_instance`. -/
def refreshLastUsed (now : Int) (name : String) (p : String × InstanceRec) :
    String × InstanceRec :=
  if p.1 = name then (p.1, { p.2 with lastUsed := now }) else p

/-- `BrowserManager.get_instance(name)`: `KeyError` (here `none`) if the
name is unknown, otherwise refreshes the handle's last-used timestamp and
returns the handle (here the updated manager state, which is its sole
side effect). -/
def getInstance (now : Int) (m : ManagerState) (name : String) :
    Option ManagerState :=
  if name ∈ m.instances.map Prod.fst then
    some { m with instances := m.instances.map (refreshLastUsed now name) }
  else none

/-- The per-handle test of `_cleanup_idle_instances`: marked for removal
when its age strictly exceeds the max lifetime or its idle time strictly
exceeds the max idle time. -/
def shouldEvict (now : Int) (m : ManagerState) (r : InstanceRec) : Bool :=
  (m.maxLifetime < now - r.createdAt) || (m.maxIdleTime < now - r.lastUsed)

/-- `BrowserManager._cleanup_idle_instances` (one sweep tick): removes
every handle marked by `shouldEvict`. -/
def cleanupIdleInstances (now : Int) (m : ManagerState) : ManagerState :=
  { m with instances := m.instances.filter (fun p => !(shouldEvict now m p.2)) }

/-- Concrete link graph for the DFS duplicate-visit counterexample:
`0 → 1, 2` and `1 → 2` (node `2` is shared by two parents). -/
def gDiamond : Nat → List Nat :=
  fun u => if u = 0 then [1, 2] else if u = 1 then [2] else []

/-- Concrete link graph with a single link `0 → 1`. -/
def gSingle : Nat → List Nat := fun u => if u = 0 then [1] else []

/-- Concrete link graph where the failing node `1` is discovered both from
the seed and from node `2`: `0 → 1, 2` and `2 → 1`. -/
def gRetry : Nat → List Nat :=
  fun u => if u = 0 then [1, 2] else if u = 2 then [1] else []

/-- Concrete two-page site for the admission-filter claim: the seed links
to a PDF document. -/
def gPdfSite : String → List String :=
  fun u => if u = "https://site.example/" then ["https://site.example/doc.pdf"] else []

/-- Everything that stays true of the BFS loop state. -/
structure BfsInv (g : U → List U) (fail : U → Bool) (maxD maxP : Nat) (seed : U)
    (s : BfsState U) : Prop where
  nodupQueue : (s.queue.map Prod.fst).Nodup
  queuedIff : ∀ u : U, u ∈ s.queued ↔ u ∈ s.queue.map Prod.fst
  queueNotVisited : ∀ p ∈ s.queue, p.1 ∉ s.st.visited
  visitedIff : ∀ u : U,
    u ∈ s.st.visited ↔ (u ∈ s.st.attempts.map Prod.fst ∧ fail u = false)
  failedIff : ∀ u : U,
    u ∈ s.st.failed ↔ (u ∈ s.st.attempts.map Prod.fst ∧ fail u = true)
  scrapedEq : s.st.scrapedPages =
    (s.st.attempts.filter (fun p => !(fail p.1))).map Prod.fst
  recordVisitedEq : s.st.recordVisited = s.st.scrapedPages
  recordFailedEq : s.st.recordFailed = []
  scrapedNodup : s.st.scrapedPages.Nodup
  pagesEq : s.st.pagesCrawled = s.st.scrapedPages.length
  pagesLe : s.st.pagesCrawled ≤ maxP
  attemptsDepth : ∀ p ∈ s.st.attempts, p.2 ≤ maxD
  queueDepth : ∀ p ∈ s.queue, p.2 ≤ maxD
  depthSorted : List.Pairwise (· ≤ ·)
    (s.st.attempts.map Prod.snd ++ s.queue.map Prod.snd)
  queueLevel : ∀ p ∈ s.queue, ∀ q ∈ s.queue, p.2 ≤ q.2 + 1
  reachAttempts : ∀ p ∈ s.st.attempts, ReachIn g seed p.2 p.1
  reachQueue : ∀ p ∈ s.queue, ReachIn g seed p.2 p.1
  expanded : ∀ p ∈ s.st.attempts, fail p.1 = false → p.2 < maxD →
    ∀ v ∈ g p.1, (∃ d ≤ p.2 + 1, (v, d) ∈ s.st.attempts) ∨
      (∃ d ≤ p.2 + 1, (v, d) ∈ s.queue)
  seedCovered : (seed, 0) ∈ s.st.attempts ∨ (seed, 0) ∈ s.queue

/-! ### Filter-chain lemmas -/

theorem runFilter_not_chain (f : PyFilter) (x : String) :
    runFilter (.chain [f] "not") x = !(runFilter f x) := by
  simp [runFilter, runAll]

theorem runFilter_and_chain (fs : List PyFilter) (x : String) :
    runFilter (.chain fs "and") x = runAll fs x := by
  cases fs with
  | nil => simp [runFilter, runAll]
  | cons f fs => simp [runFilter, runAll]

theorem runAll_append (l1 l2 : List PyFilter) (x : String) :
    runAll (l1 ++ l2) x = (runAll l1 x && runAll l2 x) := by
  induction l1 with
  | nil => simp [runAll]
  | cons f fs ih => simp [runAll, ih, Bool.and_assoc]

theorem runFilter_pyAnd (a b : PyFilter) (x : String) :
    runFilter (pyAnd a b) x = (runFilter a x && runFilter b x) := by
  cases a with
  | leaf p =>
    simp [pyAnd, runFilter, runAll]
  | chain fs op =>
    by_cases hop : op = "and"
    · subst hop
      cases b with
      | leaf q => simp [pyAnd, runFilter_and_chain, runAll_append, runAll, runFilter]
      | chain fs2 op2 =>
        by_cases hop2 : op2 = "and"
        · subst hop2
          simp [pyAnd, runFilter_and_chain, runAll_append]
        · simp [pyAnd, hop2, runFilter_and_chain, runAll_append, runAll]
    · simp [pyAnd, hop, runFilter_and_chain, runAll, runFilter]

/-- C8: for all filters (evaluation in this embedding is pure by
construction) and every input, `A & B` and `B & A` evaluate to the same
boolean, and `~(~A)` evaluates to the same boolean as `A`. -/
theorem c8_filter_composition_algebra (a b : PyFilter) (x : String) :
    runFilter (pyAnd a b) x = runFilter (pyAnd b a) x ∧
    runFilter (pyInvert (pyInvert a)) x = runFilter a x := by
  constructor
  · rw [runFilter_pyAnd, runFilter_pyAnd, Bool.and_comm]
  · simp [pyInvert, runFilter_not_chain]

/-- C9 counterexample: constructing a NOT chain with zero children raises
the built-in `ValueError`, not the `ConfigurationError` named by the
specification's error taxonomy (no such class exists in the code base). -/
theorem c9_not_chain_raises_value_error :
    filterChainInit [] "not" = Except.error PyError.valueError ∧
    filterChainInit [] "not" ≠ Except.error PyError.configurationError := by
  refine ⟨rfl, ?_⟩
  intro h
  rw [show filterChainInit [] "not" = Except.error PyError.valueError from rfl] at h
  injection h with h'
  cases h'

/-- C9 (amended): constructing a NOT filter node with a child count other
than one fails by raising `ValueError`, while constructing it with exactly
one child succeeds and evaluation inverts the child's result. -/
theorem c9_not_chain_arity (fs : List PyFilter) (f : PyFilter) (x : String)
    (h : fs.length ≠ 1) :
    filterChainInit fs "not" = Except.error PyError.valueError ∧
    filterChainInit [f] "not" = Except.ok (.chain [f] "not") ∧
    runFilter (.chain [f] "not") x = !(runFilter f x) := by
  refine ⟨?_, ?_, runFilter_not_chain f x⟩
  · simp [filterChainInit, pyLower, h]
  · simp [filterChainInit, pyLower]

theorem c9_not_chain_arity_witness :
    (([] : List PyFilter).length ≠ 1) ∧
    (filterChainInit [] "not" = Except.error PyError.valueError ∧
     filterChainInit [PyFilter.leaf (fun _ => true)] "not" =
       Except.ok (.chain [PyFilter.leaf (fun _ => true)] "not") ∧
     runFilter (.chain [PyFilter.leaf (fun _ => true)] "not") "x" =
       !(runFilter (PyFilter.leaf (fun _ => true)) "x")) :=
  ⟨by decide, c9_not_chain_arity [] (PyFilter.leaf (fun _ => true)) "x" (by decide)⟩

/-- C10: an empty filter chain accepts every input whether its operator is
"and" or "or", and both empty chains are constructible (only "not"
demands a child). -/
theorem c10_empty_chain_accepts (x : String) :
    runFilter (.chain [] "and") x = true ∧
    runFilter (.chain [] "or") x = true ∧
    filterChainInit [] "and" = Except.ok (.chain [] "and") ∧
    filterChainInit [] "or" = Except.ok (.chain [] "or") := by
  refine ⟨rfl, rfl, rfl, rfl⟩

/-! ### Browser-pool eviction -/

theorem mem_map_refreshLastUsed (m : ManagerState) (name : String)
    (r : InstanceRec) (t : Int) (hmem : (name, r) ∈ m.instances) :
    (name, { r with lastUsed := t }) ∈ m.instances.map (refreshLastUsed t name) := by
  refine List.mem_map.mpr ⟨(name, r), hmem, ?_⟩
  simp [refreshLastUsed]

/-- C7: a handle whose idle time strictly exceeds `max_idle_time` or whose
age strictly exceeds `max_lifetime` is removed by the next cleanup sweep;
and a handle looked up via `get_instance` at time `t` has its last-used
timestamp reset to `t`, so it survives a sweep at any later time `s` with
`s - t` within the idle threshold (and its age still within the
lifetime). -/
theorem c7_pool_eviction (m : ManagerState) (name : String) (r : InstanceRec)
    (now t s : Int)
    (hnodup : (m.instances.map Prod.fst).Nodup)
    (hmem : (name, r) ∈ m.instances) :
    ((m.maxIdleTime < now - r.lastUsed ∨ m.maxLifetime < now - r.createdAt) →
      name ∉ (cleanupIdleInstances now m).instances.map Prod.fst) ∧
    (∀ m', getInstance t m name = some m' →
      s - t ≤ m.maxIdleTime → s - r.createdAt ≤ m.maxLifetime →
      (name, { r with lastUsed := t }) ∈ m'.instances ∧
        name ∈ (cleanupIdleInstances s m').instances.map Prod.fst) := by
  constructor
  · intro h hc
    simp only [cleanupIdleInstances] at hc
    obtain ⟨p, hp, hp1⟩ := List.mem_map.mp hc
    obtain ⟨hpm, hpred⟩ := List.mem_filter.mp hp
    have hpr : p = (name, r) :=
      List.inj_on_of_nodup_map hnodup hpm hmem (by simp [hp1])
    subst hpr
    simp only [shouldEvict, Bool.not_eq_true', Bool.or_eq_false_iff,
      decide_eq_false_iff_not, not_lt] at hpred
    rcases h with h | h
    · exact absurd hpred.2 (by simpa using h.not_le)
    · exact absurd hpred.1 (by simpa using h.not_le)
  · intro m' hget hidle hlife
    have hm' : m' = { m with instances := m.instances.map (refreshLastUsed t name) } := by
      simp only [getInstance] at hget
      split at hget
      · exact (Option.some.inj hget).symm
      · exact absurd hget (by simp)
    subst hm'
    refine ⟨mem_map_refreshLastUsed m name r t hmem, ?_⟩
    refine List.mem_map.mpr ⟨(name, { r with lastUsed := t }), ?_, rfl⟩
    refine List.mem_filter.mpr ⟨mem_map_refreshLastUsed m name r t hmem, ?_⟩
    simp only [shouldEvict, Bool.not_eq_true', Bool.or_eq_false_iff,
      decide_eq_false_iff_not, not_lt]
    exact ⟨by simpa using hlife, by simpa using hidle⟩

theorem c7_pool_eviction_witness :
    ((([("browser", InstanceRec.mk 0 0)] : List (String × InstanceRec)).map Prod.fst).Nodup) ∧
    (("browser", InstanceRec.mk 0 0) ∈
      (ManagerState.mk [("browser", InstanceRec.mk 0 0)] 5 100).instances) ∧
    (((ManagerState.mk [("browser", InstanceRec.mk 0 0)] 5 100).maxIdleTime <
        (6 : Int) - (InstanceRec.mk 0 0).lastUsed ∨
      (ManagerState.mk [("browser", InstanceRec.mk 0 0)] 5 100).maxLifetime <
        (6 : Int) - (InstanceRec.mk 0 0).createdAt) →
      "browser" ∉ (cleanupIdleInstances 6
        (ManagerState.mk [("browser", InstanceRec.mk 0 0)] 5 100)).instances.map Prod.fst) ∧
    (∀ m', getInstance 4 (ManagerState.mk [("browser", InstanceRec.mk 0 0)] 5 100) "browser" = some m' →
      (9 : Int) - 4 ≤ (ManagerState.mk [("browser", InstanceRec.mk 0 0)] 5 100).maxIdleTime →
      (9 : Int) - (InstanceRec.mk 0 0).createdAt ≤
        (ManagerState.mk [("browser", InstanceRec.mk 0 0)] 5 100).maxLifetime →
      ("browser", InstanceRec.mk 0 4) ∈ m'.instances ∧
        "browser" ∈ (cleanupIdleInstances 9 m').instances.map Prod.fst) :=
  ⟨by decide, by decide,
    (c7_pool_eviction (ManagerState.mk [("browser", InstanceRec.mk 0 0)] 5 100)
      "browser" (InstanceRec.mk 0 0) 6 4 9 (by decide) (by decide)).1,
    (c7_pool_eviction (ManagerState.mk [("browser", InstanceRec.mk 0 0)] 5 100)
      "browser" (InstanceRec.mk 0 0) 6 4 9 (by decide) (by decide)).2⟩

/-! ### Traversal record counterexamples and evaluations -/

/-- C1 counterexample: on the diamond graph `0 → {1, 2}`, `1 → 2` the DFS
strategy fetches page `2` twice — it is extracted from page `0` before it
is visited via page `1`, and `_dfs_crawl` never re-checks the visited set
when it reaches a candidate — so URL `2` appears twice in the completed
record's `scraped_pages` and `visited_urls` lists. -/
theorem c1_dfs_duplicate_counterexample :
    ¬ ((dfsCrawl { maxDepth := 2, maxPages := 100 } gDiamond (fun _ => false) 10 0).scrapedPages.Nodup ∧
       (dfsCrawl { maxDepth := 2, maxPages := 100 } gDiamond (fun _ => false) 10 0).visitedUrls.Nodup) := by
  decide

/-- C2: the configured `url_filter` is stored by `BaseStrategy.__init__`
and never consulted by any crawl path, so for *every* admission filter —
in particular one blocking the `.pdf` extension — the discovered
`doc.pdf` link is enqueued, fetched, and lands in the record's visited
list and scraped pages. -/
theorem c2_url_filter_never_applied (filt : String → Bool) :
    "https://site.example/doc.pdf" ∈
      (bfsCrawl { maxDepth := 1, maxPages := 10, urlFilter := some filt }
        gPdfSite (fun _ => false) 5 "https://site.example/").visitedUrls ∧
    "https://site.example/doc.pdf" ∈
      (bfsCrawl { maxDepth := 1, maxPages := 10, urlFilter := some filt }
        gPdfSite (fun _ => false) 5 "https://site.example/").scrapedPages := by
  have h : (bfsCrawl { maxDepth := 1, maxPages := 10, urlFilter := some filt }
      gPdfSite (fun _ => false) 5 "https://site.example/") =
      ⟨"https://site.example/", "BFS", 1,
        ["https://site.example/", "https://site.example/doc.pdf"],
        ["https://site.example/", "https://site.example/doc.pdf"], []⟩ := rfl
  rw [h]
  exact ⟨by simp, by simp⟩

/-- C3: on the graph `0 → 1` where fetching `1` fails, the completed run
record's failed-URL list is empty (the failure is recorded only in the
strategy's internal failed set, never transferred to the record), so the
record reports `success_rate = 1.0` instead of the claimed `0.5`. -/
theorem c3_success_rate_ignores_failures :
    (bfsCrawl { maxDepth := 3, maxPages := 100 } gSingle (fun u => decide (u = 1)) 5 0).failedUrls = [] ∧
    (bfsRun gSingle (fun u => decide (u = 1)) 3 100 5 0).st.failed = [1] ∧
    successRate (bfsCrawl { maxDepth := 3, maxPages := 100 } gSingle (fun u => decide (u = 1)) 5 0) = 1 := by
  refine ⟨by decide, by decide, ?_⟩
  have h : (bfsCrawl { maxDepth := 3, maxPages := 100 } gSingle (fun u => decide (u = 1)) 5 0) =
      ⟨0, "BFS", 1, [0], [0], []⟩ := rfl
  rw [h]
  norm_num [successRate]

/-- C4 counterexample: on the graph `0 → {1, 2}`, `2 → 1` where fetching
`1` always fails, URL `1` completes a fetch attempt but never enters the
visited set, is re-enqueued when page `2` links to it, and is fetched a
second time in the same run. -/
theorem c4_failed_url_refetched_counterexample :
    (bfsRun gRetry (fun u => decide (u = 1)) 2 100 10 0).st.attempts =
      [(0, 0), (1, 1), (2, 1), (1, 2)] ∧
    1 ∉ (bfsRun gRetry (fun u => decide (u = 1)) 2 100 10 0).st.visited := by
  decide

/-! ### BFS loop invariant and the traversal theorems -/

theorem mem_setAdd (s : List U) (u v : U) : u ∈ setAdd s v ↔ u = v ∨ u ∈ s := by
  simp only [setAdd]
  split
  · constructor
    · exact Or.inr
    · rintro (rfl | h) <;> assumption
  · simp [List.mem_cons]

theorem bfsEnqueue_spec (st : StrategyState U) (depth : Nat) :
    ∀ (links : List U) (queue : List (U × Nat)) (queued : List U),
    (∀ u, u ∈ queued ↔ u ∈ queue.map Prod.fst) →
    (queue.map Prod.fst).Nodup →
    ∃ new : List U,
      (bfsEnqueue st depth links queue queued).1 =
        queue ++ new.map (fun v => (v, depth + 1)) ∧
      (∀ u, u ∈ (bfsEnqueue st depth links queue queued).2 ↔
        u ∈ (bfsEnqueue st depth links queue queued).1.map Prod.fst) ∧
      ((bfsEnqueue st depth links queue queued).1.map Prod.fst).Nodup ∧
      (∀ v ∈ new, v ∈ links ∧ v ∉ st.visited) ∧
      (∀ v ∈ links, v ∈ st.visited ∨
        v ∈ (bfsEnqueue st depth links queue queued).1.map Prod.fst) := by
  intro links
  induction links with
  | nil =>
    intro queue queued hiff hnodup
    exact ⟨[], by simp [bfsEnqueue], by simpa [bfsEnqueue] using hiff,
      by simpa [bfsEnqueue] using hnodup, by simp, by simp⟩
  | cons l ls ih =>
    intro queue queued hiff hnodup
    by_cases hc : l ∉ st.visited ∧ l ∉ queued
    · have hstep : bfsEnqueue st depth (l :: ls) queue queued =
          bfsEnqueue st depth ls (queue ++ [(l, depth + 1)]) (queued ++ [l]) := by
        simp [bfsEnqueue, List.foldl_cons, hc]
      have hiff' : ∀ u, u ∈ queued ++ [l] ↔ u ∈ (queue ++ [(l, depth + 1)]).map Prod.fst := by
        intro u; simp [hiff u]
      have hlq : l ∉ queue.map Prod.fst := fun h => hc.2 ((hiff l).mpr h)
      have hnodup' : ((queue ++ [(l, depth + 1)]).map Prod.fst).Nodup := by
        rw [List.map_append]
        refine List.Nodup.append hnodup (List.nodup_singleton _) ?_
        intro a ha hb
        simp only [List.map_cons, List.map_nil, List.mem_singleton] at hb
        subst hb
        exact hlq ha
      obtain ⟨new', h1, h2, h3, h4, h5⟩ := ih (queue ++ [(l, depth + 1)]) (queued ++ [l]) hiff' hnodup'
      refine ⟨l :: new', ?_, ?_, ?_, ?_, ?_⟩
      · rw [hstep, h1]; simp
      · rw [hstep]; exact h2
      · rw [hstep]; exact h3
      · intro v hv
        rcases List.mem_cons.mp hv with rfl | hv
        · exact ⟨List.mem_cons_self _ _, hc.1⟩
        · exact ⟨List.mem_cons_of_mem _ (h4 v hv).1, (h4 v hv).2⟩
      · intro v hv
        rcases List.mem_cons.mp hv with rfl | hv
        · right
          rw [hstep, h1]
          simp
        · rcases h5 v hv with h | h
          · exact Or.inl h
          · right; rw [hstep]; exact h
    · have hstep : bfsEnqueue st depth (l :: ls) queue queued =
          bfsEnqueue st depth ls queue queued := by
        simp only [bfsEnqueue, List.foldl_cons]
        rw [if_neg hc]
      obtain ⟨new', h1, h2, h3, h4, h5⟩ := ih queue queued hiff hnodup
      refine ⟨new', ?_, ?_, ?_, ?_, ?_⟩
      · rw [hstep]; exact h1
      · rw [hstep]; exact h2
      · rw [hstep]; exact h3
      · intro v hv; exact ⟨List.mem_cons_of_mem _ (h4 v hv).1, (h4 v hv).2⟩
      · intro v hv
        rcases List.mem_cons.mp hv with rfl | hv
        · rcases not_and_or.mp hc with h | h
          · exact Or.inl (not_not.mp h)
          · right
            rw [hstep, h1]
            have : v ∈ queue.map Prod.fst := (hiff v).mp (not_not.mp h)
            simp only [List.map_append, List.mem_append]
            exact Or.inl this
        · rcases h5 v hv with h | h
          · exact Or.inl h
          · right; rw [hstep]; exact h


theorem bfsInit_inv (g : U → List U) (fail : U → Bool) (maxD maxP : Nat)
    (start : U) : BfsInv g fail maxD maxP start ⟨{}, [(start, 0)], [start]⟩ := by
  constructor <;> simp [ReachIn.refl]


theorem pairwise_le_of_all_eq (l : List Nat) (c : Nat) (h : ∀ x ∈ l, x = c) :
    List.Pairwise (· ≤ ·) l := by
  induction l with
  | nil => simp
  | cons a l ih =>
    simp only [List.pairwise_cons]
    refine ⟨?_, ih (fun x hx => h x (List.mem_cons_of_mem a hx))⟩
    intro b hb
    rw [h a (List.mem_cons_self a l), h b (List.mem_cons_of_mem a hb)]

theorem bfsStep_inv (g : U → List U) (fail : U → Bool) (maxD maxP : Nat) (seed : U)
    (s s' : BfsState U) (hs : bfsStep g fail maxD maxP s = some s')
    (hInv : BfsInv g fail maxD maxP seed s) : BfsInv g fail maxD maxP seed s' := by
  rcases s with ⟨st, queue, queued⟩
  rcases hq : queue with _ | ⟨⟨url, depth⟩, rest⟩
  · subst hq; simp [bfsStep] at hs
  · subst hq
    rw [bfsStep] at hs
    simp only at hs
    by_cases hbudget : shouldContinueCrawling maxP st = false
    · rw [if_pos hbudget] at hs; exact absurd hs (by simp)
    · rw [if_neg hbudget] at hs
      have hPages : st.pagesCrawled < maxP := by
        by_contra hcon
        exact hbudget (by simp [shouldContinueCrawling, Nat.le_of_not_lt hcon])
      have hUrlRest : url ∉ rest.map Prod.fst := by
        have h0 := hInv.nodupQueue
        simp only [List.map_cons, List.nodup_cons] at h0
        exact h0.1
      have hRestNodup : (rest.map Prod.fst).Nodup := by
        have h0 := hInv.nodupQueue
        simp only [List.map_cons, List.nodup_cons] at h0
        exact h0.2
      have hQdIff : ∀ u : U, u ∈ queued.filter (fun x => decide (x ≠ url)) ↔
          u ∈ rest.map Prod.fst := by
        intro u
        simp only [List.mem_filter, decide_eq_true_eq]
        constructor
        · rintro ⟨hu, hne⟩
          have h0 := (hInv.queuedIff u).mp hu
          simp only [List.map_cons, List.mem_cons] at h0
          rcases h0 with rfl | h0
          · exact absurd rfl hne
          · exact h0
        · intro hu
          refine ⟨(hInv.queuedIff u).mpr (by simp [hu]), ?_⟩
          rintro rfl; exact hUrlRest hu
      have hDepthUrl : depth ≤ maxD := hInv.queueDepth (url, depth) (by simp)
      have hReachUrl : ReachIn g seed depth url :=
        hInv.reachQueue (url, depth) (by simp)
      have hARle : ∀ a ∈ st.attempts.map Prod.snd, a ≤ depth := by
        intro a ha
        have h0 := List.pairwise_append.mp hInv.depthSorted
        exact h0.2.2 a ha depth (by simp)
      have hRestGe : ∀ b ∈ rest.map Prod.snd, depth ≤ b := by
        intro b hb
        have h0 := (List.pairwise_append.mp hInv.depthSorted).2.1
        simp only [List.map_cons, List.pairwise_cons] at h0
        exact h0.1 b hb
      have hRestLe : ∀ p ∈ rest, p.2 ≤ depth + 1 := by
        intro p hp
        exact hInv.queueLevel p (by simp [hp]) (url, depth) (by simp)
      have hQNV : ∀ p ∈ rest, p.1 ∉ st.visited := fun p hp =>
        hInv.queueNotVisited p (by simp [hp])
      have hUrlNotVisited : url ∉ st.visited :=
        hInv.queueNotVisited (url, depth) (by simp)
      have hSorted1 : List.Pairwise (· ≤ ·)
          ((st.attempts ++ [(url, depth)]).map Prod.snd ++ rest.map Prod.snd) := by
        have h0 := hInv.depthSorted
        simp only [List.map_cons] at h0
        simpa [List.map_append, List.append_assoc] using h0
      have hAttDepth1 : ∀ p ∈ st.attempts ++ [(url, depth)], p.2 ≤ maxD := by
        intro p hp
        rcases List.mem_append.mp hp with h | h
        · exact hInv.attemptsDepth p h
        · simp only [List.mem_singleton] at h
          subst h; exact hDepthUrl
      have hReachAtt1 : ∀ p ∈ st.attempts ++ [(url, depth)], ReachIn g seed p.2 p.1 := by
        intro p hp
        rcases List.mem_append.mp hp with h | h
        · exact hInv.reachAttempts p h
        · simp only [List.mem_singleton] at h
          subst h; exact hReachUrl
      have hSeed1 : ((seed, 0) ∈ st.attempts ++ [(url, depth)]) ∨ (seed, 0) ∈ rest := by
        rcases hInv.seedCovered with h | h
        · exact Or.inl (List.mem_append.mpr (Or.inl h))
        · rcases List.mem_cons.mp h with heq | h
          · exact Or.inl (List.mem_append.mpr (Or.inr (by simp [heq])))
          · exact Or.inr h
      -- old `expanded` facts survive: a queue witness is either the popped
      -- pair (now an attempt) or still in `rest`
      have hExp1 : ∀ p ∈ st.attempts, fail p.1 = false → p.2 < maxD →
          ∀ v ∈ g p.1, (∃ d ≤ p.2 + 1, (v, d) ∈ st.attempts ++ [(url, depth)]) ∨
            (∃ d ≤ p.2 + 1, (v, d) ∈ rest) := by
        intro p hp hpf hpd v hv
        rcases hInv.expanded p hp hpf hpd v hv with ⟨d, hd, hmem⟩ | ⟨d, hd, hmem⟩
        · exact Or.inl ⟨d, hd, List.mem_append.mpr (Or.inl hmem)⟩
        · rcases List.mem_cons.mp hmem with heq | hmem
          · exact Or.inl ⟨d, hd, List.mem_append.mpr (Or.inr (by simp [heq]))⟩
          · exact Or.inr ⟨d, hd, hmem⟩
      by_cases hfail : fail url = true
      · -- fetch failure: the URL goes into the failed set only
        simp only [scrapePage, hfail, ite_true, ite_false, if_true, if_false,
          Bool.false_eq_true] at hs
        rw [Option.some.injEq] at hs
        subst hs
        refine
          { nodupQueue := hRestNodup, queuedIff := hQdIff, queueNotVisited := hQNV,
            recordVisitedEq := hInv.recordVisitedEq,
            recordFailedEq := hInv.recordFailedEq,
            scrapedNodup := hInv.scrapedNodup, pagesEq := hInv.pagesEq,
            pagesLe := hInv.pagesLe, attemptsDepth := hAttDepth1,
            queueDepth := fun p hp => hInv.queueDepth p (by simp [hp]),
            depthSorted := hSorted1,
            queueLevel := fun p hp q hqq =>
              hInv.queueLevel p (by simp [hp]) q (by simp [hqq]),
            reachAttempts := hReachAtt1,
            reachQueue := fun p hp => hInv.reachQueue p (by simp [hp]),
            seedCovered := hSeed1,
            visitedIff := ?_, failedIff := ?_, scrapedEq := ?_, expanded := ?_ }
        · intro u
          simp only [List.map_append, List.mem_append, List.map_cons,
            List.map_nil, List.mem_singleton]
          constructor
          · intro hu
            have h0 := (hInv.visitedIff u).mp hu
            exact ⟨Or.inl h0.1, h0.2⟩
          · rintro ⟨hu | rfl, hf⟩
            · exact (hInv.visitedIff u).mpr ⟨hu, hf⟩
            · rw [hfail] at hf; cases hf
        · intro u
          simp only [List.map_append, List.mem_append, List.map_cons,
            List.map_nil, List.mem_singleton, mem_setAdd]
          constructor
          · rintro (rfl | hu)
            · exact ⟨Or.inr rfl, hfail⟩
            · have h0 := (hInv.failedIff u).mp hu
              exact ⟨Or.inl h0.1, h0.2⟩
          · rintro ⟨hu | rfl, hf⟩
            · exact Or.inr ((hInv.failedIff u).mpr ⟨hu, hf⟩)
            · exact Or.inl rfl
        · simp only [List.filter_append, List.filter_cons, hfail,
            Bool.not_true, Bool.false_eq_true, if_false, List.filter_nil,
            List.append_nil]
          exact hInv.scrapedEq
        · intro p hp hpf hpd v hv
          rcases List.mem_append.mp hp with h | h
          · exact hExp1 p h hpf hpd v hv
          · simp only [List.mem_singleton] at h
            subst h
            simp only [hfail] at hpf
            cases hpf
      · -- fetch success
        have hfail' : fail url = false := by simpa using hfail
        simp only [scrapePage, hfail', Bool.false_eq_true, ite_false, ite_true,
          if_false, if_true, addScrapedPage] at hs
        -- shared facts about the post-scrape state
        have hVisIff3 : ∀ u : U, u ∈ setAdd st.visited url ↔
            (u ∈ (st.attempts ++ [(url, depth)]).map Prod.fst ∧ fail u = false) := by
          intro u
          simp only [mem_setAdd, List.map_append, List.mem_append, List.map_cons,
            List.map_nil, List.mem_singleton]
          constructor
          · rintro (rfl | hu)
            · exact ⟨Or.inr rfl, hfail'⟩
            · have h0 := (hInv.visitedIff u).mp hu
              exact ⟨Or.inl h0.1, h0.2⟩
          · rintro ⟨hu | rfl, hf⟩
            · exact Or.inr ((hInv.visitedIff u).mpr ⟨hu, hf⟩)
            · exact Or.inl rfl
        have hFailIff3 : ∀ u : U, u ∈ st.failed ↔
            (u ∈ (st.attempts ++ [(url, depth)]).map Prod.fst ∧ fail u = true) := by
          intro u
          simp only [List.map_append, List.mem_append, List.map_cons,
            List.map_nil, List.mem_singleton]
          constructor
          · intro hu
            have h0 := (hInv.failedIff u).mp hu
            exact ⟨Or.inl h0.1, h0.2⟩
          · rintro ⟨hu | rfl, hf⟩
            · exact (hInv.failedIff u).mpr ⟨hu, hf⟩
            · rw [hfail'] at hf; cases hf
        have hScrapedEq3 : st.scrapedPages ++ [url] =
            ((st.attempts ++ [(url, depth)]).filter (fun p => !(fail p.1))).map Prod.fst := by
          simp only [List.filter_append, List.filter_cons, hfail', Bool.not_false,
            if_true, List.filter_nil, List.map_append, List.map_cons, List.map_nil]
          rw [hInv.scrapedEq]
        have hUrlNotScraped : url ∉ st.scrapedPages := by
          intro hu
          rw [hInv.scrapedEq] at hu
          obtain ⟨p, hp, hp1⟩ := List.mem_map.mp hu
          have hpA : p ∈ st.attempts := List.mem_of_mem_filter hp
          have : url ∈ st.visited := by
            refine (hInv.visitedIff url).mpr ⟨?_, hfail'⟩
            exact hp1 ▸ List.mem_map_of_mem Prod.fst hpA
          exact hUrlNotVisited this
        have hScrapedNodup3 : (st.scrapedPages ++ [url]).Nodup := by
          refine List.Nodup.append hInv.scrapedNodup (List.nodup_singleton _) ?_
          intro a ha hb
          simp only [List.mem_singleton] at hb
          subst hb
          exact hUrlNotScraped ha
        have hPagesEq3 : st.pagesCrawled + 1 = (st.scrapedPages ++ [url]).length := by
          have hpe : st.pagesCrawled = st.scrapedPages.length := hInv.pagesEq
          simp [hpe]
        have hPagesLe3 : st.pagesCrawled + 1 ≤ maxP := hPages
        by_cases hdepth : maxD ≤ depth
        · -- depth cutoff: the page's links are not expanded
          rw [if_pos hdepth] at hs
          rw [Option.some.injEq] at hs
          subst hs
          refine
            { nodupQueue := hRestNodup, queuedIff := hQdIff,
              recordVisitedEq := by
                have hrv : st.recordVisited = st.scrapedPages := hInv.recordVisitedEq
                simp only [hrv],
              recordFailedEq := hInv.recordFailedEq,
              scrapedNodup := hScrapedNodup3, pagesEq := hPagesEq3,
              pagesLe := hPagesLe3, attemptsDepth := hAttDepth1,
              queueDepth := fun p hp => hInv.queueDepth p (by simp [hp]),
              depthSorted := hSorted1,
              queueLevel := fun p hp q hqq =>
                hInv.queueLevel p (by simp [hp]) q (by simp [hqq]),
              reachAttempts := hReachAtt1,
              reachQueue := fun p hp => hInv.reachQueue p (by simp [hp]),
              seedCovered := hSeed1,
              visitedIff := hVisIff3, failedIff := hFailIff3,
              scrapedEq := hScrapedEq3,
              queueNotVisited := ?_, expanded := ?_ }
          · intro p hp
            rw [mem_setAdd]
            rintro (rfl | hv)
            · exact hUrlRest (List.mem_map_of_mem Prod.fst hp)
            · exact hQNV p hp hv
          · intro p hp hpf hpd v hv
            rcases List.mem_append.mp hp with h | h
            · exact hExp1 p h hpf hpd v hv
            · simp only [List.mem_singleton] at h
              subst h
              exact absurd hpd (Nat.not_lt.mpr hdepth)
        · -- expand: extracted links are enqueued at depth + 1
          rw [if_neg hdepth] at hs
          rw [Option.some.injEq] at hs
          have hDepthSucc : depth + 1 ≤ maxD :=
            Nat.succ_le_of_lt (Nat.lt_of_not_le hdepth)
          obtain ⟨new, hq'eq, hqd'iff, hq'nodup, hnewMem, hcover⟩ :=
            bfsEnqueue_spec
              { visited := setAdd st.visited url, failed := st.failed,
                pagesCrawled := st.pagesCrawled + 1,
                currentDepth := st.currentDepth ⊔ depth,
                scrapedPages := st.scrapedPages ++ [url],
                recordVisited := st.recordVisited ++ [url],
                recordFailed := st.recordFailed,
                attempts := st.attempts ++ [(url, depth)] }
              depth
              (extractLinks g
                { visited := setAdd st.visited url, failed := st.failed,
                  pagesCrawled := st.pagesCrawled + 1,
                  currentDepth := st.currentDepth ⊔ depth,
                  scrapedPages := st.scrapedPages ++ [url],
                  recordVisited := st.recordVisited ++ [url],
                  recordFailed := st.recordFailed,
                  attempts := st.attempts ++ [(url, depth)] }
                url)
              rest (queued.filter (fun x => decide (x ≠ url))) hQdIff hRestNodup
          subst hs
          have hLinksMem : ∀ v : U,
              v ∈ extractLinks g
                { visited := setAdd st.visited url, failed := st.failed,
                  pagesCrawled := st.pagesCrawled + 1,
                  currentDepth := st.currentDepth ⊔ depth,
                  scrapedPages := st.scrapedPages ++ [url],
                  recordVisited := st.recordVisited ++ [url],
                  recordFailed := st.recordFailed,
                  attempts := st.attempts ++ [(url, depth)] }
                url ↔ (v ∈ g url ∧ v ∉ setAdd st.visited url) := by
            intro v
            simp [extractLinks]
          have hMemQ' : ∀ p, p ∈
              (bfsEnqueue
                { visited := setAdd st.visited url, failed := st.failed,
                  pagesCrawled := st.pagesCrawled + 1,
                  currentDepth := st.currentDepth ⊔ depth,
                  scrapedPages := st.scrapedPages ++ [url],
                  recordVisited := st.recordVisited ++ [url],
                  recordFailed := st.recordFailed,
                  attempts := st.attempts ++ [(url, depth)] }
                depth
                (extractLinks g
                  { visited := setAdd st.visited url, failed := st.failed,
                    pagesCrawled := st.pagesCrawled + 1,
                    currentDepth := st.currentDepth ⊔ depth,
                    scrapedPages := st.scrapedPages ++ [url],
                    recordVisited := st.recordVisited ++ [url],
                    recordFailed := st.recordFailed,
                    attempts := st.attempts ++ [(url, depth)] }
                  url)
                rest (queued.filter (fun x => decide (x ≠ url)))).1 →
              p ∈ rest ∨ ∃ v ∈ new, p = (v, depth + 1) := by
            intro p hp
            rw [hq'eq] at hp
            rcases List.mem_append.mp hp with h | h
            · exact Or.inl h
            · obtain ⟨v, hv, rfl⟩ := List.mem_map.mp h
              exact Or.inr ⟨v, hv, rfl⟩
          have hub : ∀ p, (p ∈ rest ∨ ∃ v ∈ new, p = (v, depth + 1)) →
              p.2 ≤ depth + 1 := by
            rintro p (h | ⟨v, hv, rfl⟩)
            · exact hRestLe p h
            · exact le_refl _
          have hlb : ∀ p, (p ∈ rest ∨ ∃ v ∈ new, p = (v, depth + 1)) →
              depth ≤ p.2 := by
            rintro p (h | ⟨v, hv, rfl⟩)
            · exact hRestGe p.2 (List.mem_map_of_mem Prod.snd h)
            · exact Nat.le_succ depth
          refine
            { nodupQueue := hq'nodup, queuedIff := hqd'iff,
              recordVisitedEq := by
                have hrv : st.recordVisited = st.scrapedPages := hInv.recordVisitedEq
                simp only [hrv],
              recordFailedEq := hInv.recordFailedEq,
              scrapedNodup := hScrapedNodup3, pagesEq := hPagesEq3,
              pagesLe := hPagesLe3, attemptsDepth := hAttDepth1,
              reachAttempts := hReachAtt1,
              visitedIff := hVisIff3, failedIff := hFailIff3,
              scrapedEq := hScrapedEq3,
              queueNotVisited := ?_, queueDepth := ?_, depthSorted := ?_,
              queueLevel := ?_, reachQueue := ?_, expanded := ?_,
              seedCovered := ?_ }
          · intro p hp
            rcases hMemQ' p hp with h | ⟨v, hv, rfl⟩
            · show p.1 ∉ setAdd st.visited url
              rw [mem_setAdd]
              rintro (heq | hviz)
              · exact hUrlRest (heq ▸ List.mem_map_of_mem Prod.fst h)
              · exact hQNV p h hviz
            · exact (hnewMem v hv).2
          · intro p hp
            rcases hMemQ' p hp with h | ⟨v, hv, rfl⟩
            · exact hInv.queueDepth p (by simp [h])
            · exact hDepthSucc
          · rw [hq'eq]
            rw [List.map_append Prod.snd rest (new.map (fun v => (v, depth + 1)))]
            rw [← List.append_assoc]
            refine List.pairwise_append.mpr ⟨hSorted1, ?_, ?_⟩
            · refine pairwise_le_of_all_eq _ (depth + 1) ?_
              intro x hx
              obtain ⟨p, hp, rfl⟩ := List.mem_map.mp hx
              obtain ⟨v, hv, rfl⟩ := List.mem_map.mp hp
              rfl
            · intro x hx y hy
              have hy' : y = depth + 1 := by
                obtain ⟨p, hp, rfl⟩ := List.mem_map.mp hy
                obtain ⟨v, hv, rfl⟩ := List.mem_map.mp hp
                rfl
              rw [hy']
              rcases List.mem_append.mp hx with h | h
              · obtain ⟨p, hp, rfl⟩ := List.mem_map.mp h
                rcases List.mem_append.mp hp with h1 | h1
                · exact le_trans (hARle p.2 (List.mem_map_of_mem Prod.snd h1))
                    (Nat.le_succ depth)
                · simp only [List.mem_singleton] at h1
                  subst h1
                  exact Nat.le_succ depth
              · obtain ⟨p, hp, rfl⟩ := List.mem_map.mp h
                exact hRestLe p hp
          · intro p hp q hqq
            have h1 := hub p (hMemQ' p hp)
            have h2 := hlb q (hMemQ' q hqq)
            omega
          · intro p hp
            rcases hMemQ' p hp with h | ⟨v, hv, rfl⟩
            · exact hInv.reachQueue p (by simp [h])
            · have hvg : v ∈ g url := ((hLinksMem v).mp (hnewMem v hv).1).1
              exact ReachIn.step hReachUrl hvg
          · intro p hp hpf hpd v hv
            rcases List.mem_append.mp hp with h | h
            · rcases hExp1 p h hpf hpd v hv with ⟨d, hd, hmem⟩ | ⟨d, hd, hmem⟩
              · exact Or.inl ⟨d, hd, hmem⟩
              · refine Or.inr ⟨d, hd, ?_⟩
                rw [hq'eq]
                exact List.mem_append.mpr (Or.inl hmem)
            · simp only [List.mem_singleton] at h
              subst h
              by_cases hviz : v ∈ setAdd st.visited url
              · left
                have h0 := (hVisIff3 v).mp hviz
                obtain ⟨pr, hpr, hpr1⟩ := List.mem_map.mp h0.1
                refine ⟨pr.2, ?_, ?_⟩
                · rcases List.mem_append.mp hpr with hA | hU
                  · exact le_trans (hARle pr.2 (List.mem_map_of_mem Prod.snd hA))
                      (Nat.le_succ depth)
                  · simp only [List.mem_singleton] at hU
                    subst hU
                    exact Nat.le_succ depth
                · have hpr2 : (v, pr.2) = pr := by
                    rcases pr with ⟨a, b⟩
                    simp only at hpr1
                    simp [hpr1]
                  rw [hpr2]
                  exact hpr
              · right
                have hvl := (hLinksMem v).mpr ⟨hv, hviz⟩
                rcases hcover v hvl with h0 | h0
                · exact absurd h0 hviz
                · obtain ⟨pr, hpr, hpr1⟩ := List.mem_map.mp h0
                  refine ⟨pr.2, hub pr (hMemQ' pr hpr), ?_⟩
                  have hpr2 : (v, pr.2) = pr := by
                    rcases pr with ⟨a, b⟩
                    simp only at hpr1
                    simp [hpr1]
                  rw [hpr2]
                  exact hpr
          · rcases hSeed1 with h | h
            · exact Or.inl h
            · right
              rw [hq'eq]
              exact List.mem_append.mpr (Or.inl h)

theorem bfsLoop_inv (g : U → List U) (fail : U → Bool) (maxD maxP : Nat)
    (seed : U) : ∀ (fuel : Nat) (s : BfsState U),
    BfsInv g fail maxD maxP seed s →
    BfsInv g fail maxD maxP seed (bfsLoop g fail maxD maxP fuel s) := by
  intro fuel
  induction fuel with
  | zero => intro s h; exact h
  | succ fuel ih =>
    intro s h
    cases hstep : bfsStep g fail maxD maxP s with
    | none =>
      rw [bfsLoop, hstep]
      exact h
    | some s2 =>
      rw [bfsLoop, hstep]
      exact ih s2 (bfsStep_inv g fail maxD maxP seed s s2 hstep h)

theorem bfsRun_inv (g : U → List U) (fail : U → Bool) (maxD maxP fuel : Nat)
    (start : U) :
    BfsInv g fail maxD maxP start (bfsRun g fail maxD maxP fuel start) :=
  bfsLoop_inv g fail maxD maxP start fuel _
    (bfsInit_inv g fail maxD maxP start)

theorem reachIn_mono (g : U → List U) (seed : U) :
    ∀ {n : Nat} {u : U}, ReachIn g seed n u → ∀ {m : Nat}, n ≤ m →
    ReachIn g seed m u := by
  intro n u h
  induction h with
  | refl n => intro m hm; exact ReachIn.refl m
  | step hu hv ih =>
    intro m hm
    cases m with
    | zero => cases hm
    | succ m => exact ReachIn.step (ih (Nat.le_of_succ_le_succ hm)) hv

theorem count_fst_filter_of_fail_false (fail : U → Bool) (u : U)
    (hu : fail u = false) :
    ∀ l : List (U × Nat),
    ((l.filter (fun p => !(fail p.1))).map Prod.fst).count u =
      (l.map Prod.fst).count u := by
  intro l
  induction l with
  | nil => simp
  | cons p l ih =>
    by_cases hp : fail p.1 = true
    · have hne : p.1 ≠ u := by rintro rfl; rw [hu] at hp; cases hp
      simp [List.filter_cons, hp, List.count_cons, ih, hne]
    · have hp' : fail p.1 = false := by simpa using hp
      simp [List.filter_cons, hp', List.count_cons, ih]

/-- C1 (amended): a completed BFS run record lists every URL at most once
in both `scraped_pages` and `visited_urls` (the DFS strategy does not
guarantee this, see the counterexample). -/
theorem c1_bfs_record_nodup (cfg : StrategyConfig U) (g : U → List U)
    (fail : U → Bool) (fuel : Nat) (start : U) :
    (bfsCrawl cfg g fail fuel start).scrapedPages.Nodup ∧
    (bfsCrawl cfg g fail fuel start).visitedUrls.Nodup := by
  have h := bfsRun_inv g fail cfg.maxDepth cfg.maxPages fuel start
  have h2 : (bfsRun g fail cfg.maxDepth cfg.maxPages fuel start).st.recordVisited =
      (bfsRun g fail cfg.maxDepth cfg.maxPages fuel start).st.scrapedPages :=
    h.recordVisitedEq
  exact ⟨h.scrapedNodup, by
    show (bfsRun g fail cfg.maxDepth cfg.maxPages fuel start).st.recordVisited.Nodup
    rw [h2]; exact h.scrapedNodup⟩

/-- C4 (amended): in a BFS run a URL is in the visited set iff some fetch
attempt on it succeeded, it is in the failed set iff some fetch attempt on
it failed, and a URL whose fetches succeed is fetched at most once (while
a failing URL may be re-fetched, see the counterexample). -/
theorem c4_bfs_visited_characterization (g : U → List U) (fail : U → Bool)
    (maxD maxP fuel : Nat) (start u : U) :
    (u ∈ (bfsRun g fail maxD maxP fuel start).st.visited ↔
      (u ∈ (bfsRun g fail maxD maxP fuel start).st.attempts.map Prod.fst ∧
        fail u = false)) ∧
    (u ∈ (bfsRun g fail maxD maxP fuel start).st.failed ↔
      (u ∈ (bfsRun g fail maxD maxP fuel start).st.attempts.map Prod.fst ∧
        fail u = true)) ∧
    (fail u = false →
      ((bfsRun g fail maxD maxP fuel start).st.attempts.map Prod.fst).count u ≤ 1) := by
  have h := bfsRun_inv g fail maxD maxP fuel start
  refine ⟨h.visitedIff u, h.failedIff u, ?_⟩
  intro hu
  rw [← count_fst_filter_of_fail_false fail u hu]
  have h2 := h.scrapedEq
  rw [← h2]
  exact List.nodup_iff_count_le_one.mp h.scrapedNodup u

theorem foldl_preserve {A B : Type} (P : B → Prop) (f : B → A → B) :
    ∀ (l : List A) (b : B), P b → (∀ x, P x → ∀ a ∈ l, P (f x a)) →
    P (l.foldl f b) := by
  intro l
  induction l with
  | nil => intro b hb _; exact hb
  | cons a l ih =>
    intro b hb hstep
    rw [List.foldl_cons]
    exact ih (f b a) (hstep b hb a (List.mem_cons_self a l))
      (fun x hx a2 ha2 => hstep x hx a2 (List.mem_cons_of_mem a ha2))

theorem dfs_bounds (g : U → List U) (fail : U → Bool) (maxD maxP : Nat) :
    ∀ (gas : Nat) (url : U) (st : StrategyState U) (depth : Nat),
    st.pagesCrawled ≤ maxP → depth ≤ maxD →
    (∀ p ∈ st.attempts, p.2 ≤ maxD) →
    (dfsCrawlRec g fail maxD maxP gas url st depth).pagesCrawled ≤ maxP ∧
    (∀ p ∈ (dfsCrawlRec g fail maxD maxP gas url st depth).attempts, p.2 ≤ maxD) := by
  intro gas
  induction gas with
  | zero => intro url st depth h1 h2 h3; exact ⟨h1, h3⟩
  | succ gas ih =>
    intro url st depth h1 h2 h3
    rw [dfsCrawlRec]
    by_cases hbudget : shouldContinueCrawling maxP st = false
    · rw [if_pos hbudget]; exact ⟨h1, h3⟩
    · rw [if_neg hbudget]
      have hPages : st.pagesCrawled < maxP := by
        by_contra hcon
        exact hbudget (by simp [shouldContinueCrawling, Nat.le_of_not_lt hcon])
      have hAtt1 : ∀ p ∈ st.attempts ++ [(url, depth)], p.2 ≤ maxD := by
        intro p hp
        rcases List.mem_append.mp hp with h | h
        · exact h3 p h
        · simp only [List.mem_singleton] at h
          subst h; exact h2
      by_cases hfail : fail url = true
      · simp only [scrapePage, hfail, ite_true, ite_false, if_true, if_false,
          Bool.false_eq_true]
        exact ⟨h1, hAtt1⟩
      · have hfail' : fail url = false := by simpa using hfail
        simp only [scrapePage, hfail', Bool.false_eq_true, ite_false, ite_true,
          if_false, if_true, addScrapedPage]
        by_cases hdepth : maxD ≤ depth
        · rw [if_pos hdepth]
          exact ⟨hPages, hAtt1⟩
        · rw [if_neg hdepth]
          have hdepth1 : depth + 1 ≤ maxD :=
            Nat.succ_le_of_lt (Nat.lt_of_not_le hdepth)
          refine foldl_preserve
            (fun (st2 : StrategyState U) =>
              st2.pagesCrawled ≤ maxP ∧ ∀ p ∈ st2.attempts, p.2 ≤ maxD)
            _ _ _ ⟨hPages, hAtt1⟩ ?_
          intro b hb a ha
          by_cases hc : shouldContinueCrawling maxP b = true
          · rw [if_pos hc]
            exact ih a b (depth + 1) hb.1 hdepth1 hb.2
          · rw [if_neg hc]
            exact hb

/-- C5: at every point of a BFS run (any fuel) and after any DFS run, the
pages-crawled counter never exceeds `max_pages` and no fetch is attempted
at a frontier depth greater than `max_depth` (pages at exactly `max_depth`
are fetched, their links are not expanded). -/
theorem c5_budgets_respected (g : U → List U) (fail : U → Bool)
    (maxD maxP fuel gas : Nat) (start : U) :
    ((bfsRun g fail maxD maxP fuel start).st.pagesCrawled ≤ maxP ∧
      ∀ p ∈ (bfsRun g fail maxD maxP fuel start).st.attempts, p.2 ≤ maxD) ∧
    ((dfsCrawlRec g fail maxD maxP gas start {} 0).pagesCrawled ≤ maxP ∧
      ∀ p ∈ (dfsCrawlRec g fail maxD maxP gas start {} 0).attempts, p.2 ≤ maxD) := by
  have h := bfsRun_inv g fail maxD maxP fuel start
  refine ⟨⟨h.pagesLe, h.attemptsDepth⟩, ?_⟩
  exact dfs_bounds g fail maxD maxP gas start {} 0 (by simp) (Nat.zero_le maxD)
    (by simp)

/-- C6: when BFS with a never-failing fetcher runs to queue exhaustion
without hitting the page budget, it fetches exactly the URLs reachable
within `max_depth` hops of the seed, each exactly once, and fetch order is
non-decreasing in discovery depth. -/
theorem c6_bfs_reachability (g : U → List U) (maxD maxP fuel : Nat) (seed : U)
    (hq : (bfsRun g (fun _ => false) maxD maxP fuel seed).queue = [])
    (hp : (bfsRun g (fun _ => false) maxD maxP fuel seed).st.pagesCrawled < maxP) :
    (∀ u : U, u ∈ (bfsRun g (fun _ => false) maxD maxP fuel seed).st.scrapedPages ↔
      ReachIn g seed maxD u) ∧
    (bfsRun g (fun _ => false) maxD maxP fuel seed).st.scrapedPages.Nodup ∧
    List.Pairwise (· ≤ ·)
      ((bfsRun g (fun _ => false) maxD maxP fuel seed).st.attempts.map Prod.snd) := by
  have h := bfsRun_inv g (fun _ => false) maxD maxP fuel seed
  have hSeedAtt : (seed, 0) ∈ (bfsRun g (fun _ => false) maxD maxP fuel seed).st.attempts := by
    rcases h.seedCovered with h0 | h0
    · exact h0
    · rw [hq] at h0; cases h0
  have hExpFinal : ∀ p ∈ (bfsRun g (fun _ => false) maxD maxP fuel seed).st.attempts,
      p.2 < maxD → ∀ v ∈ g p.1,
      ∃ d ≤ p.2 + 1, (v, d) ∈ (bfsRun g (fun _ => false) maxD maxP fuel seed).st.attempts := by
    intro p hp2 hpd v hv
    rcases h.expanded p hp2 rfl hpd v hv with ⟨d, hd, hmem⟩ | ⟨d, hd, hmem⟩
    · exact ⟨d, hd, hmem⟩
    · rw [hq] at hmem; cases hmem
  have hComplete : ∀ (n : Nat) (u : U), ReachIn g seed n u → n ≤ maxD →
      ∃ d ≤ n, (u, d) ∈ (bfsRun g (fun _ => false) maxD maxP fuel seed).st.attempts := by
    intro n u hr
    induction hr with
    | refl n => intro _; exact ⟨0, Nat.zero_le n, hSeedAtt⟩
    | step hu hv ih =>
      intro hn
      obtain ⟨d, hd, hmem⟩ := ih (Nat.le_of_succ_le hn)
      have hdlt : d < maxD := Nat.lt_of_le_of_lt hd (Nat.lt_of_lt_of_le (Nat.lt_succ_self _) hn)
      obtain ⟨d2, hd2, hmem2⟩ := hExpFinal _ hmem hdlt _ hv
      exact ⟨d2, Nat.le_trans hd2 (Nat.succ_le_succ hd), hmem2⟩
  refine ⟨?_, h.scrapedNodup, ?_⟩
  · intro u
    constructor
    · intro hu
      rw [h.scrapedEq] at hu
      obtain ⟨p, hp2, hp1⟩ := List.mem_map.mp hu
      have hpA : p ∈ (bfsRun g (fun _ => false) maxD maxP fuel seed).st.attempts :=
        List.mem_of_mem_filter hp2
      have hr := h.reachAttempts p hpA
      have hle := h.attemptsDepth p hpA
      rw [← hp1]
      exact reachIn_mono g seed hr hle
    · intro hu
      obtain ⟨d, hd, hmem⟩ := hComplete maxD u hu (Nat.le_refl maxD)
      rw [h.scrapedEq]
      refine List.mem_map.mpr ⟨(u, d), ?_, rfl⟩
      refine List.mem_filter.mpr ⟨hmem, by simp⟩
  · have h0 := h.depthSorted
    rw [hq] at h0
    simpa using h0

theorem c6_bfs_reachability_witness :
    ((bfsRun gSingle (fun _ => false) 1 10 5 0).queue = []) ∧
    ((bfsRun gSingle (fun _ => false) 1 10 5 0).st.pagesCrawled < 10) ∧
    ((∀ u : Nat, u ∈ (bfsRun gSingle (fun _ => false) 1 10 5 0).st.scrapedPages ↔
        ReachIn gSingle 0 1 u) ∧
      (bfsRun gSingle (fun _ => false) 1 10 5 0).st.scrapedPages.Nodup ∧
      List.Pairwise (· ≤ ·)
        ((bfsRun gSingle (fun _ => false) 1 10 5 0).st.attempts.map Prod.snd)) :=
  ⟨by decide, by decide,
    c6_bfs_reachability gSingle 1 10 5 0 (by decide) (by decide)⟩

theorem c4_bfs_visited_characterization_witness :
    ((fun u => decide (u = 1)) 0 = false) ∧
    (((bfsRun gRetry (fun u => decide (u = 1)) 2 100 10 0).st.attempts.map Prod.fst).count 0 ≤ 1) :=
  ⟨by decide,
    (c4_bfs_visited_characterization gRetry (fun u => decide (u = 1)) 2 100 10 0 0).2.2
      (by decide)⟩
